import Mathlib

/-!
Verification of the hft-service aggregation engine: the segment-tree node
algebra (`src/segment_tree.rs`), the iterative bottom-up segment tree, the
symbol store (`src/store.rs`) and the HTTP batch handler (`src/lib.rs`).

Numeric embedding: Rust `f64` sample values are modelled exactly by `ℚ`
(the claims under study concern exact aggregation identities; the spec's
float tolerances are satisfied by exactness).  The `f64::INFINITY` /
`f64::NEG_INFINITY` sentinels used for the identity node's `min` / `max`
are modelled by `⊤ : WithTop ℚ` and `⊥ : WithBot ℚ`; those fields only
ever undergo `min` / `max`, never arithmetic.  Machine `u64` / `usize`
counters are modelled by `ℕ`.
-/

set_option allowUnsafeReducibility true
attribute [semireducible] Rat.add Rat.mul Rat.div Rat.inv Rat.sub Rat.neg

instance exceptDecEq {e a : Type} [DecidableEq e] [DecidableEq a] :
    DecidableEq (Except e a) := fun x y =>
  match x, y with
  | .ok v, .ok w =>
    if h : v = w then .isTrue (by rw [h]) else .isFalse (fun hh => h (Except.ok.inj hh))
  | .error v, .error w =>
    if h : v = w then .isTrue (by rw [h]) else .isFalse (fun hh => h (Except.error.inj hh))
  | .ok _, .error _ => .isFalse (fun hh => Except.noConfusion hh)
  | .error _, .ok _ => .isFalse (fun hh => Except.noConfusion hh)

namespace HftService

/-- `Node` from `src/segment_tree.rs`: one aggregate node of the segment
tree (Welford representation: `mean` and `m2`). -/
@[ext]
structure Node where
  min : WithTop ℚ
  max : WithBot ℚ
  count : ℕ
  mean : ℚ
  m2 : ℚ
deriving DecidableEq, Repr

/-- `Node::default()`: the identity aggregate (`min = +∞`, `max = -∞`,
`count = 0`, `mean = 0`, `m2 = 0`). -/
def Node.identity : Node := ⟨⊤, ⊥, 0, 0, 0⟩

/-- `impl Add for Node` from `src/segment_tree.rs`: Chan/Welford parallel
merge with identity short-circuits. -/
def Node.add (a b : Node) : Node :=
  if a.count = 0 then b
  else if b.count = 0 then a
  else
    let combined_count : ℕ := a.count + b.count
    let delta : ℚ := b.mean - a.mean
    { min := Min.min a.min b.min
      max := Max.max a.max b.max
      count := combined_count
      mean := a.mean + delta * ((b.count : ℚ) / (combined_count : ℚ))
      m2 := a.m2 + b.m2 + delta ^ 2 * ((a.count : ℚ) * (b.count : ℚ) / (combined_count : ℚ)) }

/-- The leaf node written by `update_internal` for a single sample `v`. -/
def Node.single (v : ℚ) : Node := ⟨(v : ℚ), (v : ℚ), 1, v, 0⟩

theorem Node.add_of_left_zero (a b : Node) (h : a.count = 0) : Node.add a b = b := by
  unfold Node.add; rw [if_pos h]

theorem Node.add_of_right_zero (a b : Node) (ha : a.count ≠ 0) (hb : b.count = 0) :
    Node.add a b = a := by
  unfold Node.add; rw [if_neg ha, if_pos hb]

theorem Node.add_of_pos (a b : Node) (ha : a.count ≠ 0) (hb : b.count ≠ 0) :
    Node.add a b =
      ⟨Min.min a.min b.min, Max.max a.max b.max, a.count + b.count,
        a.mean + (b.mean - a.mean) * ((b.count : ℚ) / ((a.count + b.count : ℕ) : ℚ)),
        a.m2 + b.m2 + (b.mean - a.mean) ^ 2 *
          ((a.count : ℚ) * (b.count : ℚ) / ((a.count + b.count : ℕ) : ℚ))⟩ := by
  unfold Node.add; rw [if_neg ha, if_neg hb]

theorem Node.add_left_id (b : Node) : Node.add Node.identity b = b := by
  simp [Node.add, Node.identity]

theorem Node.count_add (a b : Node) : (Node.add a b).count = a.count + b.count := by
  by_cases ha : a.count = 0
  · rw [Node.add_of_left_zero a b ha, ha]; omega
  · by_cases hb : b.count = 0
    · rw [Node.add_of_right_zero a b ha hb, hb]; omega
    · rw [Node.add_of_pos a b ha hb]


/-- A node is "zero-clean" when a zero count forces it to be the literal
identity node; every node reachable in a built tree satisfies this. -/
def NodeZi (n : Node) : Prop := n.count = 0 → n = Node.identity

theorem nodeZi_identity : NodeZi Node.identity := fun _ => rfl

theorem nodeZi_single (v : ℚ) : NodeZi (Node.single v) := by
  intro h; simp [Node.single] at h

theorem Node.add_right_id_zi (a : Node) (ha : NodeZi a) :
    Node.add a Node.identity = a := by
  by_cases h : a.count = 0
  · rw [ha h]; exact Node.add_left_id _
  · exact Node.add_of_right_zero _ _ h rfl

theorem nodeZi_add (a b : Node) (ha : NodeZi a) (hb : NodeZi b) : NodeZi (Node.add a b) := by
  intro h
  rw [Node.count_add] at h
  have ha0 : a.count = 0 := by omega
  have hb0 : b.count = 0 := by omega
  rw [ha ha0, hb hb0, Node.add_left_id]

/-- Associativity of the Welford merge (over exact rationals). -/
theorem Node.add_assoc (a b c : Node) :
    Node.add (Node.add a b) c = Node.add a (Node.add b c) := by
  by_cases ha : a.count = 0
  · rw [Node.add_of_left_zero a b ha, Node.add_of_left_zero a _ ha]
  · by_cases hb : b.count = 0
    · rw [Node.add_of_right_zero a b ha hb, Node.add_of_left_zero b c hb]
    · by_cases hc : c.count = 0
      · rw [Node.add_of_right_zero b c hb hc,
          Node.add_of_right_zero _ c (by rw [Node.count_add]; omega) hc]
      · have hab : (Node.add a b).count ≠ 0 := by rw [Node.count_add]; omega
        have hbc : (Node.add b c).count ≠ 0 := by rw [Node.count_add]; omega
        rw [Node.add_of_pos a b ha hb, Node.add_of_pos b c hb hc] at *
        rw [Node.add_of_pos _ c (by simpa using hab) hc,
          Node.add_of_pos a _ ha (by simpa using hbc)]
        have hna : (0 : ℚ) < (a.count : ℚ) := by exact_mod_cast Nat.pos_of_ne_zero ha
        have hnb : (0 : ℚ) < (b.count : ℚ) := by exact_mod_cast Nat.pos_of_ne_zero hb
        have hnc : (0 : ℚ) < (c.count : ℚ) := by exact_mod_cast Nat.pos_of_ne_zero hc
        have h1 : ((a.count : ℚ) + (b.count : ℚ)) ≠ 0 := by positivity
        have h2 : ((b.count : ℚ) + (c.count : ℚ)) ≠ 0 := by positivity
        have h3 : ((a.count : ℚ) + (b.count : ℚ) + (c.count : ℚ)) ≠ 0 := by positivity
        refine Node.ext ?_ ?_ ?_ ?_ ?_ <;> simp only
        · exact min_assoc _ _ _
        · exact max_assoc _ _ _
        · exact Nat.add_assoc _ _ _
        · push_cast
          field_simp
          ring
        · push_cast
          field_simp
          ring

/-! ### Folds of nodes -/

/-- `posFold t p n` merges the `n` tree cells `t p, t (p+1), …, t (p+n-1)`
left-to-right (right-associated, seeded with the identity node). -/
def posFold (t : ℕ → Node) (p : ℕ) : ℕ → Node
  | 0 => Node.identity
  | n + 1 => Node.add (t p) (posFold t (p + 1) n)

/-- The right-associated merge of the singleton nodes of a value list. -/
def singlesFold : List ℚ → Node
  | [] => Node.identity
  | v :: rest => Node.add (Node.single v) (singlesFold rest)

/-- The serial left-to-right fold of the singleton nodes of a value list,
as described by the spec's order-preservation property. -/
def serialFold (vs : List ℚ) : Node :=
  vs.foldl (fun acc v => Node.add acc (Node.single v)) Node.identity

theorem posFold_zi (t : ℕ → Node) (hz : ∀ q, NodeZi (t q)) (p : ℕ) :
    ∀ n, NodeZi (posFold t p n) := by
  intro n
  induction n generalizing p with
  | zero => exact nodeZi_identity
  | succ n ih => exact nodeZi_add _ _ (hz p) (ih (p + 1))

theorem singlesFold_count (ws : List ℚ) : (singlesFold ws).count = ws.length := by
  induction ws with
  | nil => rfl
  | cons v rest ih =>
    rw [singlesFold, Node.count_add, ih]
    simp [Node.single]
    omega

theorem serialFold_eq_singlesFold (ws : List ℚ) : serialFold ws = singlesFold ws := by
  have key : ∀ (l : List ℚ) (acc : Node), 0 < acc.count →
      l.foldl (fun acc v => Node.add acc (Node.single v)) acc =
        Node.add acc (singlesFold l) := by
    intro l
    induction l with
    | nil =>
      intro acc hacc
      rw [List.foldl_nil, singlesFold,
        Node.add_of_right_zero _ _ (by omega) rfl]
    | cons v rest ih =>
      intro acc hacc
      rw [List.foldl_cons, ih _ (by rw [Node.count_add]; omega), singlesFold,
        ← Node.add_assoc]
  cases ws with
  | nil => rfl
  | cons v rest =>
    rw [serialFold, List.foldl_cons, Node.add_left_id,
      key rest (Node.single v) (by simp [Node.single]), singlesFold]

/-- Merging the fold of a position range with the next cell on the right. -/
theorem posFold_snoc (t : ℕ → Node) (hz : ∀ q, NodeZi (t q)) :
    ∀ (n p : ℕ), posFold t p (n + 1) = Node.add (posFold t p n) (t (p + n)) := by
  intro n
  induction n with
  | zero =>
    intro p
    rw [posFold, posFold, posFold, Node.add_right_id_zi _ (hz p), Node.add_left_id]
    simp
  | succ n ih =>
    intro p
    rw [posFold, ih (p + 1), ← Node.add_assoc, ← posFold]
    have : p + 1 + n = p + (n + 1) := by omega
    rw [this]

/-! ### The segment tree (`src/segment_tree.rs`)

The backing `Vec<Node>` of length `2 * capacity` is modelled as a total
function `ℕ → Node`; every index the Rust code touches lies below
`2 * capacity`, so the extra points are never observed. -/

structure SegmentTree where
  tree : ℕ → Node
  capacity : ℕ

def SegmentTree.new (capacity : ℕ) : SegmentTree :=
  ⟨fun _ => Node.identity, capacity⟩

/-- The parent-recomputation loop of `update_internal`:
`while index > 1 { index /= 2; tree[index] = tree[2*index] + tree[2*index+1] }`.
The first `ℕ` argument is fuel (a termination device only: `index`
at least halves per iteration, so any fuel `≥ index` is enough; callers
pass `index` itself). -/
def rebuildUp : (ℕ → Node) → ℕ → ℕ → ℕ → Node
  | t, 0, _ => t
  | t, fuel + 1, index =>
    if index ≤ 1 then t
    else
      rebuildUp
        (Function.update t (index / 2)
          (Node.add (t (2 * (index / 2))) (t (2 * (index / 2) + 1))))
        fuel (index / 2)

/-- `SegmentTree::update_internal`: write the singleton leaf at
`index + capacity`, then recompute its ancestors bottom-up. -/
def SegmentTree.update_internal (st : SegmentTree) (index : ℕ) (value : ℚ) : SegmentTree :=
  ⟨rebuildUp (Function.update st.tree (index + st.capacity) (Node.single value))
      (index + st.capacity) (index + st.capacity),
    st.capacity⟩

/-- The rebuild loop of `SegmentTree::resize`: re-insert `all_values`
in order starting at leaf `i`. -/
def SegmentTree.rebuildFrom (st : SegmentTree) (i : ℕ) : List ℚ → SegmentTree
  | [] => st
  | v :: rest => SegmentTree.rebuildFrom (st.update_internal i v) (i + 1) rest

/-- `SegmentTree::resize`: allocate a fresh identity tree of capacity
`max (2 * capacity) required_capacity` and re-insert every sample. -/
def SegmentTree.resize (st : SegmentTree) (required_capacity : ℕ)
    (all_values : List ℚ) : SegmentTree :=
  SegmentTree.rebuildFrom
    ⟨fun _ => Node.identity, Max.max (st.capacity * 2) required_capacity⟩ 0 all_values

/-- `SegmentTree::update`: grow (rebuilding from `all_values`) when
`index ≥ capacity`, then perform the internal point update. -/
def SegmentTree.update (st : SegmentTree) (index : ℕ) (value : ℚ)
    (all_values : List ℚ) : SegmentTree :=
  if st.capacity ≤ index then
    (st.resize (index + 1) all_values).update_internal index value
  else st.update_internal index value

/-- The iterative query loop of `SegmentTree::query`, with explicit fuel
(the Rust loop terminates because `right` at least halves per iteration;
any `fuel > right` is enough, see `queryLoop_spec`). -/
def queryLoop (t : ℕ → Node) : ℕ → ℕ → ℕ → Node → Node → Node
  | 0, _, _, res_left, res_right => Node.add res_left res_right
  | fuel + 1, left, right, res_left, res_right =>
    if left ≤ right then
      let res_left' := if left % 2 = 1 then Node.add res_left (t left) else res_left
      let left' := if left % 2 = 1 then left + 1 else left
      let res_right' := if right % 2 = 0 then Node.add (t right) res_right else res_right
      let right' := if right % 2 = 0 then right - 1 else right
      queryLoop t fuel (left' / 2) (right' / 2) res_left' res_right'
    else Node.add res_left res_right

/-- `SegmentTree::query` over the inclusive logical range `[left, right]`. -/
def SegmentTree.query (st : SegmentTree) (left right : ℕ) : Node :=
  if right < left then Node.identity
  else
    queryLoop st.tree (right + st.capacity + 1)
      (left + st.capacity) (right + st.capacity) Node.identity Node.identity

/-! ### Structural invariants of built trees -/

/-- Internal cell `p` holds the merge of its two children. -/
def Consistent (t : ℕ → Node) (C : ℕ) : Prop :=
  ∀ p, 1 ≤ p → p < C → t p = Node.add (t (2 * p)) (t (2 * p + 1))

theorem rebuildUp_frame (fuel : ℕ) : ∀ (idx : ℕ) (t : ℕ → Node) (q : ℕ),
    idx / 2 < q → rebuildUp t fuel idx q = t q := by
  induction fuel with
  | zero => intro idx t q _; rfl
  | succ fuel ih =>
    intro idx t q hq
    by_cases h1 : idx ≤ 1
    · rw [rebuildUp, if_pos h1]
    · rw [rebuildUp, if_neg h1]
      rw [ih (idx / 2) _ q (by omega)]
      exact Function.update_noteq (by omega) _ t

theorem rebuildUp_zi (fuel : ℕ) : ∀ (idx : ℕ) (t : ℕ → Node), (∀ q, NodeZi (t q)) →
    ∀ q, NodeZi (rebuildUp t fuel idx q) := by
  induction fuel with
  | zero => intro idx t hz q; exact hz q
  | succ fuel ih =>
    intro idx t hz q
    by_cases h1 : idx ≤ 1
    · rw [rebuildUp, if_pos h1]; exact hz q
    · rw [rebuildUp, if_neg h1]
      refine ih (idx / 2) _ ?_ q
      intro r
      rcases eq_or_ne r (idx / 2) with h | h
      · rw [h, Function.update_same]
        exact nodeZi_add _ _ (hz _) (hz _)
      · rw [Function.update_noteq h]
        exact hz r

theorem rebuildUp_consistent (C : ℕ) (fuel : ℕ) : ∀ (idx : ℕ), idx ≤ fuel →
    ∀ t : ℕ → Node,
    (∀ q, 1 ≤ q → q < C → (∀ k, idx / 2 ^ (k + 1) ≠ q) →
      t q = Node.add (t (2 * q)) (t (2 * q + 1))) →
    Consistent (rebuildUp t fuel idx) C := by
  induction fuel with
  | zero =>
    intro idx hfuel t H
    intro q hq1 hqC
    refine H q hq1 hqC ?_
    intro k
    have : idx / 2 ^ (k + 1) = 0 := by
      refine Nat.div_eq_of_lt ?_
      calc idx ≤ 0 := hfuel
      _ < 2 ^ (k + 1) := by positivity
    omega
  | succ fuel ih =>
    intro idx hfuel t H
    by_cases h1 : idx ≤ 1
    · rw [rebuildUp, if_pos h1]
      intro q hq1 hqC
      refine H q hq1 hqC ?_
      intro k
      have : idx / 2 ^ (k + 1) = 0 := by
        refine Nat.div_eq_of_lt ?_
        calc idx ≤ 1 := h1
        _ < 2 ^ (k + 1) := by exact Nat.one_lt_two_pow (by omega)
      omega
    · rw [rebuildUp, if_neg h1]
      set p := idx / 2 with hp
      have hdiv : ∀ k, idx / 2 ^ (k + 1 + 1) = p / 2 ^ (k + 1) := by
        intro k
        rw [hp, Nat.div_div_eq_div_mul]
        congr 1
        rw [pow_succ (2 : ℕ) (k + 1)]
        ring
      refine ih p (by omega) _ ?_
      intro q hq1 hqC hnot
      rcases eq_or_ne q p with hqp | hqp
      · subst hqp
        rw [Function.update_same,
          Function.update_noteq (by omega), Function.update_noteq (by omega)]
      · rw [Function.update_noteq hqp]
        have h2q : (2 : ℕ) * q ≠ p := by
          intro h
          refine hnot 0 ?_
          rw [pow_one, ← h]
          omega
        have h2q1 : (2 : ℕ) * q + 1 ≠ p := by
          intro h
          refine hnot 0 ?_
          rw [pow_one, ← h]
          omega
        rw [Function.update_noteq h2q, Function.update_noteq h2q1]
        refine H q hq1 hqC ?_
        intro k
        cases k with
        | zero => rw [pow_one]; exact fun h => hqp (by rw [← h, hp])
        | succ k => rw [hdiv k]; exact hnot k

/-- Full structural invariant of a segment tree holding the sample list
`vs` in its first `vs.length` leaves. -/
def TreeOk (st : SegmentTree) (vs : List ℚ) : Prop :=
  1 ≤ st.capacity ∧ vs.length ≤ st.capacity ∧
  Consistent st.tree st.capacity ∧ (∀ q, NodeZi (st.tree q)) ∧
  ∀ i, i < vs.length → st.tree (st.capacity + i) = Node.single (vs.getD i 0)

theorem new_treeOk (C : ℕ) (hC : 1 ≤ C) : TreeOk (SegmentTree.new C) [] := by
  refine ⟨hC, by simp, ?_, fun q => nodeZi_identity, by simp⟩
  intro p _ _
  show Node.identity = Node.add Node.identity Node.identity
  rw [Node.add_left_id]

theorem update_internal_capacity (st : SegmentTree) (i : ℕ) (v : ℚ) :
    (st.update_internal i v).capacity = st.capacity := rfl

/-- After `update_internal i v` the leaf cells hold the old values except
at position `i`, which holds the singleton node of `v`. -/
theorem update_internal_leaf (st : SegmentTree) (i : ℕ) (v : ℚ) (hi : i < st.capacity)
    (j : ℕ) :
    (st.update_internal i v).tree (st.capacity + j) =
      if j = i then Node.single v else st.tree (st.capacity + j) := by
  show rebuildUp _ (i + st.capacity) (i + st.capacity) (st.capacity + j) = _
  rw [rebuildUp_frame _ _ _ _ (by omega)]
  rcases eq_or_ne j i with h | h
  · rw [if_pos h, h, Function.update_apply, if_pos (by omega)]
  · rw [if_neg h, Function.update_apply, if_neg (by omega)]

theorem update_internal_consistent (st : SegmentTree) (i : ℕ) (v : ℚ)
    (_hi : i < st.capacity) (hcons : Consistent st.tree st.capacity) :
    Consistent (st.update_internal i v).tree st.capacity := by
  refine rebuildUp_consistent st.capacity (i + st.capacity) (i + st.capacity) (le_refl _) _ ?_
  intro q hq1 hqC hnot
  have hne : i + st.capacity ≠ q := by omega
  have h2q : (2 : ℕ) * q ≠ i + st.capacity := by
    intro h
    refine hnot 0 ?_
    rw [pow_one, ← h]
    omega
  have h2q1 : (2 : ℕ) * q + 1 ≠ i + st.capacity := by
    intro h
    refine hnot 0 ?_
    rw [pow_one, ← h]
    omega
  rw [Function.update_noteq (Ne.symm hne), Function.update_noteq h2q,
    Function.update_noteq h2q1]
  exact hcons q hq1 hqC

theorem update_internal_zi (st : SegmentTree) (i : ℕ) (v : ℚ)
    (hz : ∀ q, NodeZi (st.tree q)) :
    ∀ q, NodeZi ((st.update_internal i v).tree q) := by
  refine rebuildUp_zi _ _ _ ?_
  intro r
  rcases eq_or_ne r (i + st.capacity) with h | h
  · rw [h, Function.update_same]; exact nodeZi_single v
  · rw [Function.update_noteq h]; exact hz r

/-- Appending a fresh value `v` as leaf `vs.length` preserves the invariant. -/
theorem update_internal_extend (st : SegmentTree) (vs : List ℚ) (v : ℚ)
    (hok : TreeOk st vs) (hlt : vs.length < st.capacity) :
    TreeOk (st.update_internal vs.length v) (vs ++ [v]) := by
  obtain ⟨hC, _, hcons, hz, hleaf⟩ := hok
  refine ⟨hC, by rw [update_internal_capacity]; simp only [List.length_append,
      List.length_cons, List.length_nil]; omega,
    update_internal_consistent st _ v hlt hcons,
    update_internal_zi st _ v hz, ?_⟩
  intro i hi
  rw [update_internal_capacity]
  rw [update_internal_leaf st _ v hlt i]
  simp only [List.length_append, List.length_cons, List.length_nil] at hi
  rcases eq_or_ne i vs.length with h | h
  · rw [if_pos h, h]
    congr 1
    rw [List.getD_eq_getElem?_getD, List.getElem?_append_right (by omega)]
    simp
  · rw [if_neg h, hleaf i (by omega)]
    congr 1
    rw [List.getD_eq_getElem?_getD, List.getD_eq_getElem?_getD,
      List.getElem?_append_left (by omega)]

/-- Overwriting leaf `i` with the value it already holds preserves the
invariant (this happens right after a resize rebuild). -/
theorem update_internal_overwrite (st : SegmentTree) (vs : List ℚ) (i : ℕ)
    (hok : TreeOk st vs) (hi : i < vs.length) :
    TreeOk (st.update_internal i (vs.getD i 0)) vs := by
  obtain ⟨hC, hlen, hcons, hz, hleaf⟩ := hok
  have hiC : i < st.capacity := by omega
  refine ⟨hC, hlen, update_internal_consistent st _ _ hiC hcons,
    update_internal_zi st _ _ hz, ?_⟩
  intro j hj
  rw [update_internal_capacity]
  rw [update_internal_leaf st _ _ hiC j]
  rcases eq_or_ne j i with h | h
  · rw [if_pos h, h]
  · rw [if_neg h]
    exact hleaf j hj

theorem rebuildFrom_ok (batch : List ℚ) : ∀ (st : SegmentTree) (vs : List ℚ),
    TreeOk st vs → vs.length + batch.length ≤ st.capacity →
    TreeOk (st.rebuildFrom vs.length batch) (vs ++ batch) := by
  induction batch with
  | nil =>
    intro st vs hok _
    rw [SegmentTree.rebuildFrom, List.append_nil]
    exact hok
  | cons v rest ih =>
    intro st vs hok hcap
    rw [SegmentTree.rebuildFrom]
    have hlt : vs.length < st.capacity := by
      simp only [List.length_cons] at hcap
      omega
    have hok' := update_internal_extend st vs v hok hlt
    have hcap' : (vs ++ [v]).length + rest.length ≤ (st.update_internal vs.length v).capacity := by
      rw [update_internal_capacity]
      simp only [List.length_append, List.length_cons, List.length_nil] at hcap ⊢
      omega
    have := ih (st.update_internal vs.length v) (vs ++ [v]) hok' hcap'
    rw [List.length_append, List.length_cons, List.length_nil] at this
    rw [List.append_assoc] at this
    simpa using this

theorem resize_ok (st : SegmentTree) (required : ℕ) (all_values : List ℚ)
    (hlen : all_values.length ≤ Max.max (st.capacity * 2) required)
    (hpos : 1 ≤ Max.max (st.capacity * 2) required) :
    TreeOk (st.resize required all_values) all_values := by
  have h := rebuildFrom_ok all_values
    ⟨fun _ => Node.identity, Max.max (st.capacity * 2) required⟩ []
    (new_treeOk _ hpos) (by simpa using hlen)
  simpa using h

/-- `update` at index `vs.length` with the already-extended value list
(the exact call shape of `Store::add_batch`) preserves the invariant. -/
theorem update_ok (st : SegmentTree) (vs : List ℚ) (v : ℚ) (hok : TreeOk st vs) :
    TreeOk (st.update vs.length v (vs ++ [v])) (vs ++ [v]) := by
  rw [SegmentTree.update]
  by_cases h : st.capacity ≤ vs.length
  · rw [if_pos h]
    have hlen : (vs ++ [v]).length ≤ Max.max (st.capacity * 2) (vs.length + 1) := by
      simp
    have hok' := resize_ok st (vs.length + 1) (vs ++ [v]) hlen (by omega)
    have hi : vs.length < (vs ++ [v]).length := by simp
    have := update_internal_overwrite _ (vs ++ [v]) vs.length hok' hi
    have hv : (vs ++ [v]).getD vs.length 0 = v := by
      rw [List.getD_eq_getElem?_getD, List.getElem?_append_right (by omega)]
      simp
    rwa [hv] at this
  · rw [if_neg h]
    exact update_internal_extend st vs v hok (by omega)

/-! ### Correctness of the iterative range query -/

/-- Lifting a fold of an even-aligned range of cells one level up the
tree: consecutive sibling pairs merge into their parents. -/
theorem posFold_pair (t : ℕ → Node) (C : ℕ) (hcons : Consistent t C)
    (_hz : ∀ q, NodeZi (t q)) :
    ∀ (k a : ℕ), 1 ≤ a → a + k ≤ C →
      posFold t (2 * a) (2 * k) = posFold t a k := by
  intro k
  induction k with
  | zero => intro a _ _; rfl
  | succ k ih =>
    intro a ha haC
    have h2 : 2 * (k + 1) = (2 * k + 1) + 1 := by omega
    rw [h2, posFold, posFold]
    have hpos : 2 * a + 1 + 1 = 2 * (a + 1) := by omega
    rw [hpos, ← Node.add_assoc]
    rw [← hcons a ha (by omega)]
    rw [ih (a + 1) (by omega) (by omega)]
    rfl

/-- Invariant of the iterative query loop: with enough fuel, the loop
computes `res_left + (fold of cells left..right) + res_right`. -/
theorem queryLoop_spec (t : ℕ → Node) (C : ℕ) (hcons : Consistent t C)
    (hz : ∀ q, NodeZi (t q)) :
    ∀ (fuel right left : ℕ) (res_left res_right : Node),
      1 ≤ left → right < 2 * C → right < fuel →
      queryLoop t fuel left right res_left res_right =
        Node.add res_left (Node.add (posFold t left (right + 1 - left)) res_right) := by
  intro fuel
  induction fuel with
  | zero => intro right left _ _ _ _ hf; omega
  | succ fuel ih =>
    intro right left res_left res_right hleft hrC hf
    rw [queryLoop]
    by_cases hlr : left ≤ right
    · rw [if_pos hlr]
      have hr1 : 1 ≤ right := by omega
      -- the four parity combinations
      by_cases hl2 : left % 2 = 1 <;> by_cases hr2 : right % 2 = 0
      · -- consume both ends
        simp only [if_pos hl2, if_pos hr2]
        have hlr' : left < right := by omega
        rw [ih ((right - 1) / 2) ((left + 1) / 2) (Node.add res_left (t left))
          (Node.add (t right) res_right) (by omega) (by omega) (by omega)]
        obtain ⟨m, hm⟩ : ∃ m, left = 2 * m + 1 := ⟨left / 2, by omega⟩
        obtain ⟨b, hb⟩ : ∃ b, right = 2 * b := ⟨right / 2, by omega⟩
        -- fold decompositions
        have hhead : posFold t left (right + 1 - left)
            = Node.add (t left) (posFold t (left + 1) (right - left)) := by
          have h : right + 1 - left = (right - left) + 1 := by omega
          rw [h, posFold]
        have hsnoc : posFold t (left + 1) (right - left)
            = Node.add (posFold t (left + 1) (right - 1 + 1 - (left + 1))) (t right) := by
          have h1 : right - left = (right - 1 + 1 - (left + 1)) + 1 := by omega
          rw [h1, posFold_snoc t hz]
          have h2 : left + 1 + (right - 1 + 1 - (left + 1)) = right := by omega
          rw [h2]
        have hFP : posFold t ((left + 1) / 2) ((right - 1) / 2 + 1 - (left + 1) / 2)
            = posFold t (left + 1) (right - 1 + 1 - (left + 1)) := by
          have e3 : (left + 1) / 2 = m + 1 := by omega
          have e5 : (right - 1) / 2 + 1 - (left + 1) / 2 = b - (m + 1) := by omega
          have e2 : right - 1 + 1 - (left + 1) = 2 * (b - (m + 1)) := by omega
          have e1 : left + 1 = 2 * (m + 1) := by omega
          rw [e5, e3, e2, e1,
            posFold_pair t C hcons hz (b - (m + 1)) (m + 1) (by omega) (by omega)]
        rw [hhead, hsnoc, hFP]
        simp only [Node.add_assoc]
      · -- consume left end only
        simp only [if_pos hl2, if_neg hr2]
        rw [ih (right / 2) ((left + 1) / 2) (Node.add res_left (t left))
          res_right (by omega) (by omega) (by omega)]
        obtain ⟨m, hm⟩ : ∃ m, left = 2 * m + 1 := ⟨left / 2, by omega⟩
        obtain ⟨b, hb⟩ : ∃ b, right = 2 * b + 1 := ⟨right / 2, by omega⟩
        have hhead : posFold t left (right + 1 - left)
            = Node.add (t left) (posFold t (left + 1) (right + 1 - (left + 1))) := by
          have h : right + 1 - left = (right + 1 - (left + 1)) + 1 := by omega
          rw [h, posFold]
        have hFP : posFold t ((left + 1) / 2) (right / 2 + 1 - (left + 1) / 2)
            = posFold t (left + 1) (right + 1 - (left + 1)) := by
          have e3 : (left + 1) / 2 = m + 1 := by omega
          have e5 : right / 2 + 1 - (left + 1) / 2 = b + 1 - (m + 1) := by omega
          have e2 : right + 1 - (left + 1) = 2 * (b + 1 - (m + 1)) := by omega
          have e1 : left + 1 = 2 * (m + 1) := by omega
          rw [e5, e3, e2, e1,
            posFold_pair t C hcons hz (b + 1 - (m + 1)) (m + 1) (by omega) (by omega)]
        rw [hhead, hFP]
        simp only [Node.add_assoc]
      · -- consume right end only
        simp only [if_neg hl2, if_pos hr2]
        rw [ih ((right - 1) / 2) (left / 2) res_left
          (Node.add (t right) res_right) (by omega) (by omega) (by omega)]
        obtain ⟨m, hm⟩ : ∃ m, left = 2 * m := ⟨left / 2, by omega⟩
        obtain ⟨b, hb⟩ : ∃ b, right = 2 * b := ⟨right / 2, by omega⟩
        have hsnoc : posFold t left (right + 1 - left)
            = Node.add (posFold t left (right - 1 + 1 - left)) (t right) := by
          have h1 : right + 1 - left = (right - 1 + 1 - left) + 1 := by omega
          rw [h1, posFold_snoc t hz]
          have h2 : left + (right - 1 + 1 - left) = right := by omega
          rw [h2]
        have hFP : posFold t (left / 2) ((right - 1) / 2 + 1 - left / 2)
            = posFold t left (right - 1 + 1 - left) := by
          have e3 : left / 2 = m := by omega
          have e5 : (right - 1) / 2 + 1 - left / 2 = b - m := by omega
          have e2 : right - 1 + 1 - left = 2 * (b - m) := by omega
          have e1 : left = 2 * m := hm
          rw [e5, e3, e2, e1,
            posFold_pair t C hcons hz (b - m) m (by omega) (by omega)]
        rw [hsnoc, hFP]
        simp only [Node.add_assoc]
      · -- no consumption: both ends already aligned
        simp only [if_neg hl2, if_neg hr2]
        rw [ih (right / 2) (left / 2) res_left res_right (by omega) (by omega) (by omega)]
        obtain ⟨m, hm⟩ : ∃ m, left = 2 * m := ⟨left / 2, by omega⟩
        obtain ⟨b, hb⟩ : ∃ b, right = 2 * b + 1 := ⟨right / 2, by omega⟩
        have hFP : posFold t (left / 2) (right / 2 + 1 - left / 2)
            = posFold t left (right + 1 - left) := by
          have e3 : left / 2 = m := by omega
          have e5 : right / 2 + 1 - left / 2 = b + 1 - m := by omega
          have e2 : right + 1 - left = 2 * (b + 1 - m) := by omega
          have e1 : left = 2 * m := hm
          rw [e5, e3, e2, e1,
            posFold_pair t C hcons hz (b + 1 - m) m (by omega) (by omega)]
        rw [hFP]
    · rw [if_neg hlr]
      have h0 : right + 1 - left = 0 := by omega
      rw [h0, posFold, Node.add_left_id]

/-- For a structurally sound tree, `query l r` with `l ≤ r < capacity`
computes the fold of the leaf cells `l..r`. -/
theorem query_posFold (st : SegmentTree) (hC : 1 ≤ st.capacity)
    (hcons : Consistent st.tree st.capacity) (hz : ∀ q, NodeZi (st.tree q))
    (l r : ℕ) (hlr : l ≤ r) (hr : r < st.capacity) :
    st.query l r = posFold st.tree (st.capacity + l) (r + 1 - l) := by
  rw [SegmentTree.query, if_neg (by omega)]
  rw [queryLoop_spec st.tree st.capacity hcons hz (r + st.capacity + 1)
    (r + st.capacity) (l + st.capacity) Node.identity Node.identity
    (by omega) (by omega) (by omega)]
  rw [Node.add_left_id]
  have harith : r + st.capacity + 1 - (l + st.capacity) = r + 1 - l := by omega
  have hpos : l + st.capacity = st.capacity + l := by omega
  rw [harith, hpos]
  exact Node.add_right_id_zi _ (posFold_zi st.tree hz _ _)

/-- The contiguous slice `vs[l..r]` (inclusive) of a sample list. -/
def window (vs : List ℚ) (l r : ℕ) : List ℚ := (vs.drop l).take (r + 1 - l)

theorem posFold_leaves (st : SegmentTree) (vs : List ℚ) (hok : TreeOk st vs) :
    ∀ (k l : ℕ), l + k ≤ vs.length →
      posFold st.tree (st.capacity + l) k = singlesFold ((vs.drop l).take k) := by
  obtain ⟨_, hlen, _, _, hleaf⟩ := hok
  intro k
  induction k with
  | zero =>
    intro l _
    rw [List.take_zero]
    rfl
  | succ k ih =>
    intro l hl
    have hlv : l < vs.length := by omega
    rw [posFold]
    have harith : st.capacity + l + 1 = st.capacity + (l + 1) := by omega
    rw [harith, ih (l + 1) (by omega), hleaf l hlv]
    rw [List.drop_eq_getElem_cons hlv, List.take_succ_cons, singlesFold]
    congr 2
    rw [List.getD_eq_getElem?_getD, List.getElem?_eq_getElem hlv]
    rfl

/-- Main segment-tree theorem: on a tree holding the sample list `vs`,
`query l r` equals the serial fold of the singleton nodes of `vs[l..r]`. -/
theorem query_serialFold (st : SegmentTree) (vs : List ℚ) (hok : TreeOk st vs)
    (l r : ℕ) (hlr : l ≤ r) (hr : r < vs.length) :
    st.query l r = serialFold (window vs l r) := by
  have hC := hok.1
  have hlen := hok.2.1
  have hcons := hok.2.2.1
  have hz := hok.2.2.2.1
  rw [query_posFold st hC hcons hz l r hlr (by omega),
    posFold_leaves st vs hok (r + 1 - l) l (by omega),
    serialFold_eq_singlesFold, window]

/-! ### Naive aggregation over a value list -/

def naiveMin (ws : List ℚ) : WithTop ℚ :=
  ws.foldl (fun (acc : WithTop ℚ) (v : ℚ) => Min.min acc (v : WithTop ℚ)) ⊤

def naiveMax (ws : List ℚ) : WithBot ℚ :=
  ws.foldl (fun (acc : WithBot ℚ) (v : ℚ) => Max.max acc (v : WithBot ℚ)) ⊥

def sqSum (ws : List ℚ) : ℚ := (ws.map fun v => v ^ 2).sum

def naiveAvg (ws : List ℚ) : ℚ := ws.sum / (ws.length : ℚ)

/-- Naive population variance `E[x²] − E[x]²`. -/
def naiveVar (ws : List ℚ) : ℚ := sqSum ws / (ws.length : ℚ) - naiveAvg ws ^ 2

/-- The serial fold of a nonempty value list is exactly the naive
aggregate: `min`/`max`/`count` literally, `mean` the naive average, and
`m2` the sum of squared deviations `Σx² − (Σx)²/n`. -/
theorem serialFold_eq_naive (ws : List ℚ) (hne : ws ≠ []) :
    serialFold ws =
      ⟨naiveMin ws, naiveMax ws, ws.length, naiveAvg ws,
        sqSum ws - ws.sum ^ 2 / (ws.length : ℚ)⟩ := by
  induction ws using List.reverseRecOn with
  | nil => exact absurd rfl hne
  | append_singleton ws' x ih =>
    rcases eq_or_ne ws' [] with h | h
    · subst h
      rw [List.nil_append, serialFold, List.foldl_cons, List.foldl_nil, Node.add_left_id]
      rw [Node.single]
      refine Node.ext ?_ ?_ ?_ ?_ ?_ <;>
        simp [naiveMin, naiveMax, naiveAvg, sqSum, min_eq_right le_top, max_eq_right bot_le]
    · have hfold : serialFold (ws' ++ [x])
          = Node.add (serialFold ws') (Node.single x) := by
        rw [serialFold, List.foldl_append, List.foldl_cons, List.foldl_nil]
        rfl
      rw [hfold, ih h]
      have hn : ws'.length ≠ 0 := fun hh => h (List.length_eq_zero.mp hh)
      rw [Node.add_of_pos _ _ (by simpa using hn) (by simp [Node.single])]
      have hnq : ((ws'.length : ℚ)) ≠ 0 := by exact_mod_cast hn
      have hnq1 : ((ws'.length : ℚ) + 1) ≠ 0 := by positivity
      refine Node.ext ?_ ?_ ?_ ?_ ?_ <;> simp only [Node.single]
      · rw [naiveMin, naiveMin, List.foldl_append, List.foldl_cons, List.foldl_nil]
      · rw [naiveMax, naiveMax, List.foldl_append, List.foldl_cons, List.foldl_nil]
      · simp
      · rw [naiveAvg, naiveAvg]
        simp only [List.sum_append, List.length_append, List.sum_cons, List.sum_nil,
          List.length_cons, List.length_nil]
        push_cast
        field_simp
        ring
      · rw [naiveAvg, sqSum, sqSum]
        simp only [List.map_append, List.sum_append, List.length_append, List.sum_cons,
          List.sum_nil, List.length_cons, List.length_nil, List.map_cons, List.map_nil]
        push_cast
        field_simp
        ring

/-- `m2` of any serial fold is nonnegative (the Welford merge only ever
adds nonnegative increments to it). -/
theorem serialFold_m2_nonneg (ws : List ℚ) : 0 ≤ (serialFold ws).m2 := by
  induction ws using List.reverseRecOn with
  | nil => exact le_refl 0
  | append_singleton ws' x ih =>
    have hfold : serialFold (ws' ++ [x])
        = Node.add (serialFold ws') (Node.single x) := by
      rw [serialFold, List.foldl_append, List.foldl_cons, List.foldl_nil]
      rfl
    rw [hfold]
    by_cases h : (serialFold ws').count = 0
    · rw [Node.add_of_left_zero _ _ h, Node.single]
    · rw [Node.add_of_pos _ _ h (by simp [Node.single])]
      simp only [Node.single]
      have h1 : (0 : ℚ) ≤ (serialFold ws').mean * 0 := by simp
      positivity

/-! ### The symbol store (`src/store.rs`) and service handler (`src/lib.rs`)

The `DashMap<String, SymbolData>` is modelled as an association list with
distinct keys; mutation is modelled by returning the post-state store next
to the response, so frame properties ("the store is unchanged") are
directly expressible. -/

/-- `STARTING_CAPACITY` from `src/store.rs`. -/
def STARTING_CAPACITY : ℕ := 1000000

/-- `MAX_SYMBOLS` from `src/store.rs`. -/
def MAX_SYMBOLS : ℕ := 10

/-- `MAX_CAPACITY` from `src/lib.rs` (`10^8`). -/
def MAX_CAPACITY : ℕ := 100000000

/-- `AppError` from `src/lib.rs`. -/
inductive AppError where
  | SymbolNotFound : String → AppError
  | NotEnoughData : AppError
  | BadRequest : String → AppError
deriving DecidableEq, Repr

/-- `SymbolData` from `src/store.rs`. -/
structure SymbolData where
  values : List ℚ
  tree : SegmentTree

/-- `SymbolStats` from `src/store.rs`. -/
structure SymbolStats where
  min : WithTop ℚ
  max : WithBot ℚ
  last : ℚ
  avg : ℚ
  var : ℚ
deriving DecidableEq, Repr

/-- `Store` from `src/store.rs` (the `DashMap` as an association list). -/
structure Store where
  symbols : List (String × SymbolData)

/-- Map lookup by key. -/
def lookupSym : List (String × SymbolData) → String → Option SymbolData
  | [], _ => none
  | e :: rest, s => if e.1 = s then some e.2 else lookupSym rest s

/-- `DashMap::entry(s).or_insert_with(dflt)` followed by mutating the
entry with `f`: modify the entry in place when present, otherwise insert
`f dflt` as a new entry. -/
def entryModify : List (String × SymbolData) → String → (SymbolData → SymbolData) →
    SymbolData → List (String × SymbolData)
  | [], s, f, dflt => [(s, f dflt)]
  | e :: rest, s, f, dflt =>
    if e.1 = s then (e.1, f e.2) :: rest else e :: entryModify rest s f dflt

/-- `DashMap::contains_key`. -/
def Store.containsKey (st : Store) (s : String) : Bool :=
  (lookupSym st.symbols s).isSome

/-- `DashMap::len` (the number of distinct symbols). -/
def Store.len (st : Store) : ℕ := st.symbols.length

/-- One iteration of the `Store::add_batch` loop:
`values.push(v); tree.update(values.len() - 1, v, values)`. -/
def SymbolData.append1 (sd : SymbolData) (v : ℚ) : SymbolData :=
  ⟨sd.values ++ [v], sd.tree.update ((sd.values ++ [v]).length - 1) v (sd.values ++ [v])⟩

def SymbolData.appendBatch (sd : SymbolData) (batch : List ℚ) : SymbolData :=
  batch.foldl SymbolData.append1 sd

/-- The `SymbolData` created by `Store::add_batch` for a new symbol. -/
def SymbolData.fresh : SymbolData := ⟨[], SegmentTree.new STARTING_CAPACITY⟩

/-- `Store::add_batch` from `src/store.rs`: cap check, then per-value
append loop under the symbol's entry.  The returned pair is
`(response, post-state store)`. -/
def Store.add_batch (st : Store) (symbol : String) (batch_values : List ℚ) :
    Except AppError Unit × Store :=
  if st.containsKey symbol = false ∧ MAX_SYMBOLS ≤ st.len then
    (.error (AppError.BadRequest "Maximum number of unique symbols (10) reached."), st)
  else
    (.ok (),
      ⟨entryModify st.symbols symbol (fun sd => sd.appendBatch batch_values) SymbolData.fresh⟩)

/-- `Store::get_stats` from `src/store.rs`. -/
def Store.get_stats (st : Store) (symbol : String) (window_size : ℕ) :
    Except AppError SymbolStats :=
  match lookupSym st.symbols symbol with
  | none => .error (AppError.SymbolNotFound symbol)
  | some data =>
    let total_points := data.values.length
    if total_points = 0 then .error AppError.NotEnoughData
    else
      let actual_window_size := Min.min window_size total_points
      if actual_window_size = 0 then .error AppError.NotEnoughData
      else
        let start_index := total_points - actual_window_size
        let stats_node := data.tree.query start_index (total_points - 1)
        if stats_node.count = 0 then .error AppError.NotEnoughData
        else
          let last_value := data.values.getD (total_points - 1) 0
          let avg := stats_node.mean
          let variance :=
            if 0 < stats_node.count then stats_node.m2 / (stats_node.count : ℚ) else 0
          .ok ⟨stats_node.min, stats_node.max, last_value, avg, variance⟩

/-- The `SymbolData` created by `add_batch_handler` for a new symbol
(`src/lib.rs`, capacity `MAX_CAPACITY`). -/
def SymbolData.freshHandler : SymbolData := ⟨[], SegmentTree.new MAX_CAPACITY⟩

/-- The per-value loop of `add_batch_handler` (`src/lib.rs`): values past
`MAX_CAPACITY` are silently dropped (`break`); otherwise push and point
update.  The handler's tree has fixed capacity `MAX_CAPACITY` and the
index is always below it, so the point update is `update_internal`. -/
def handlerLoop (sd : SymbolData) : List ℚ → SymbolData
  | [] => sd
  | v :: rest =>
    if MAX_CAPACITY ≤ sd.values.length then sd
    else handlerLoop ⟨sd.values ++ [v], sd.tree.update_internal sd.values.length v⟩ rest

/-- `add_batch_handler` from `src/lib.rs`: empty-batch check, negative
value check, then get-or-create the symbol entry and run the append loop.
No batch-size check and no symbol-cap check appear on this path. -/
def add_batch_handler (st : Store) (symbol : String) (values : List ℚ) :
    Except AppError Unit × Store :=
  if values = [] then
    (.error (AppError.BadRequest "Cannot add an empty batch of values"), st)
  else if ∃ v ∈ values, v < 0 then
    (.error (AppError.BadRequest "Negative trading prices are not allowed"), st)
  else
    (.ok (),
      ⟨entryModify st.symbols symbol (fun sd => handlerLoop sd values) SymbolData.freshHandler⟩)

/-- A `SymbolData` as built by the store's ingest path from a value list. -/
def buildSD (vs : List ℚ) : SymbolData := SymbolData.fresh.appendBatch vs

theorem appendBatch_values (sd : SymbolData) (batch : List ℚ) :
    (sd.appendBatch batch).values = sd.values ++ batch := by
  induction batch generalizing sd with
  | nil => simp [SymbolData.appendBatch]
  | cons v rest ih =>
    rw [SymbolData.appendBatch, List.foldl_cons, ← SymbolData.appendBatch, ih,
      SymbolData.append1, List.append_assoc, List.singleton_append]

theorem buildSD_values (vs : List ℚ) : (buildSD vs).values = vs := by
  rw [buildSD, appendBatch_values]
  rfl

/-- Invariant of a `SymbolData`: its tree correctly indexes its log. -/
def SymbolData.Ok (sd : SymbolData) : Prop := TreeOk sd.tree sd.values

theorem append1_ok (sd : SymbolData) (v : ℚ) (hok : sd.Ok) : (sd.append1 v).Ok := by
  have h := update_ok sd.tree sd.values v hok
  show TreeOk _ _
  rw [SymbolData.append1]
  have hl : (sd.values ++ [v]).length - 1 = sd.values.length := by simp
  rw [hl]
  exact h

theorem appendBatch_ok (sd : SymbolData) (batch : List ℚ) (hok : sd.Ok) :
    (sd.appendBatch batch).Ok := by
  induction batch generalizing sd with
  | nil => exact hok
  | cons v rest ih =>
    rw [SymbolData.appendBatch, List.foldl_cons, ← SymbolData.appendBatch]
    exact ih _ (append1_ok sd v hok)

theorem buildSD_ok (vs : List ℚ) : (buildSD vs).Ok := by
  refine appendBatch_ok _ vs ?_
  show TreeOk (SegmentTree.new STARTING_CAPACITY) []
  exact new_treeOk _ (by norm_num [STARTING_CAPACITY])

/-! ### Characterization of `get_stats` -/

/-- The naive aggregate statistics over the effective window (the last
`min w N` samples) of a sample list. -/
def windowStats (vs : List ℚ) (w : ℕ) : SymbolStats :=
  ⟨naiveMin (window vs (vs.length - Min.min w vs.length) (vs.length - 1)),
    naiveMax (window vs (vs.length - Min.min w vs.length) (vs.length - 1)),
    vs.getD (vs.length - 1) 0,
    naiveAvg (window vs (vs.length - Min.min w vs.length) (vs.length - 1)),
    naiveVar (window vs (vs.length - Min.min w vs.length) (vs.length - 1))⟩

theorem window_last_length (vs : List ℚ) (w : ℕ) (hvs : vs ≠ []) (hw : 1 ≤ w) :
    (window vs (vs.length - Min.min w vs.length) (vs.length - 1)).length
      = Min.min w vs.length := by
  have hN : vs.length ≠ 0 := fun h => hvs (List.length_eq_zero.mp h)
  rw [window, List.length_take, List.length_drop]
  omega

/-- A tree invariant for the `SymbolData` built by the ingest path,
with the value list exposed. -/
theorem buildSD_treeOk (vs : List ℚ) : TreeOk (buildSD vs).tree vs := by
  have h := buildSD_ok vs
  rw [SymbolData.Ok, buildSD_values] at h
  exact h

/-- `get_stats` on a built symbol with at least one sample and a positive
requested window returns the naive statistics over the effective window
`min window_size N`. -/
theorem get_stats_build (st : Store) (sym : String) (w : ℕ) (vs : List ℚ)
    (hlk : lookupSym st.symbols sym = some (buildSD vs)) (hvs : vs ≠ []) (hw : 1 ≤ w) :
    st.get_stats sym w = .ok (windowStats vs w) := by
  have hN : vs.length ≠ 0 := fun h => hvs (List.length_eq_zero.mp h)
  have ha1 : 1 ≤ Min.min w vs.length := by omega
  have haN : Min.min w vs.length ≤ vs.length := by omega
  unfold Store.get_stats
  rw [hlk]
  simp only [buildSD_values]
  rw [if_neg hN, if_neg (by omega)]
  have hq := query_serialFold (buildSD vs).tree vs (buildSD_treeOk vs)
    (vs.length - Min.min w vs.length) (vs.length - 1) (by omega) (by omega)
  rw [hq]
  have hwlen := window_last_length vs w hvs hw
  have hwne : window vs (vs.length - Min.min w vs.length) (vs.length - 1) ≠ [] := by
    intro h
    rw [h] at hwlen
    simp at hwlen
    omega
  rw [serialFold_eq_naive _ hwne]
  simp only
  rw [hwlen]
  rw [if_neg (by omega), if_pos (by omega)]
  rw [windowStats]
  congr 1
  refine congrArg _ ?_
  -- variance: (Σx² − (Σx)²/n) / n = Σx²/n − (Σx/n)²
  rw [naiveVar, naiveAvg, hwlen]
  have hn : ((Min.min w vs.length : ℕ) : ℚ) ≠ 0 := by
    exact_mod_cast (by omega : Min.min w vs.length ≠ 0)
  field_simp
  ring

/-- `get_stats` returns `SymbolNotFound` exactly when the symbol is
absent from the store. -/
theorem get_stats_notfound_iff (st : Store) (sym : String) (w : ℕ) :
    st.get_stats sym w = .error (AppError.SymbolNotFound sym) ↔
      lookupSym st.symbols sym = none := by
  constructor
  · intro h
    cases hlk : lookupSym st.symbols sym with
    | none => rfl
    | some sd =>
      exfalso
      unfold Store.get_stats at h
      rw [hlk] at h
      dsimp only at h
      by_cases h0 : sd.values.length = 0
      · rw [if_pos h0] at h
        exact AppError.noConfusion (Except.error.inj h)
      · rw [if_neg h0] at h
        by_cases ha : Min.min w sd.values.length = 0
        · rw [if_pos ha] at h
          exact AppError.noConfusion (Except.error.inj h)
        · rw [if_neg ha] at h
          by_cases hc : (sd.tree.query (sd.values.length - Min.min w sd.values.length)
              (sd.values.length - 1)).count = 0
          · rw [if_pos hc] at h
            exact AppError.noConfusion (Except.error.inj h)
          · rw [if_neg hc] at h
            exact Except.noConfusion h
  · intro h
    unfold Store.get_stats
    rw [h]

/-- `get_stats` on a present symbol with an empty sample log returns
`NotEnoughData`. -/
theorem get_stats_empty_log (st : Store) (sym : String) (w : ℕ) (sd : SymbolData)
    (hlk : lookupSym st.symbols sym = some sd) (hsd : sd.values = []) :
    st.get_stats sym w = .error AppError.NotEnoughData := by
  unfold Store.get_stats
  rw [hlk]
  dsimp only
  rw [if_pos (by rw [hsd]; rfl)]

/-- A window size of `0` can never produce a successful result. -/
theorem get_stats_w0 (st : Store) (sym : String) (s : SymbolStats) :
    st.get_stats sym 0 ≠ .ok s := by
  intro h
  unfold Store.get_stats at h
  cases hlk : lookupSym st.symbols sym with
  | none => rw [hlk] at h; exact Except.noConfusion h
  | some sd =>
    rw [hlk] at h
    dsimp only at h
    by_cases h0 : sd.values.length = 0
    · rw [if_pos h0] at h; exact Except.noConfusion h
    · rw [if_neg h0] at h
      have : Min.min 0 sd.values.length = 0 := by omega
      rw [if_pos this] at h
      exact Except.noConfusion h

theorem lookupSym_mem (l : List (String × SymbolData)) (s : String) (sd : SymbolData)
    (h : lookupSym l s = some sd) : ∃ k, (k, sd) ∈ l := by
  induction l with
  | nil => exact Option.noConfusion h
  | cons e rest ih =>
    rw [lookupSym] at h
    by_cases he : e.1 = s
    · rw [if_pos he] at h
      exact ⟨e.1, by rw [← Option.some.inj h]; exact List.mem_cons_self _ _⟩
    · rw [if_neg he] at h
      obtain ⟨k, hk⟩ := ih h
      exact ⟨k, List.mem_cons_of_mem _ hk⟩

theorem naiveVar_nonneg (ws : List ℚ) (hne : ws ≠ []) : 0 ≤ naiveVar ws := by
  have hm2 := serialFold_m2_nonneg ws
  rw [serialFold_eq_naive ws hne] at hm2
  simp only at hm2
  have hn : (0 : ℚ) < (ws.length : ℚ) := by
    have : ws.length ≠ 0 := fun h => hne (List.length_eq_zero.mp h)
    exact_mod_cast Nat.pos_of_ne_zero this
  have hvar : naiveVar ws = (sqSum ws - ws.sum ^ 2 / (ws.length : ℚ)) / (ws.length : ℚ) := by
    rw [naiveVar, naiveAvg]
    field_simp
    ring
  rw [hvar]
  exact div_nonneg hm2 (le_of_lt hn)

/-! ### Handler-path helper lemmas -/

theorem add_batch_handler_ok (st : Store) (sym : String) (vs : List ℚ)
    (hne : vs ≠ []) (hnn : ∀ v ∈ vs, 0 ≤ v) :
    add_batch_handler st sym vs =
      (.ok (), ⟨entryModify st.symbols sym
        (fun sd => handlerLoop sd vs) SymbolData.freshHandler⟩) := by
  unfold add_batch_handler
  rw [if_neg hne, if_neg]
  rintro ⟨v, hv, hvneg⟩
  exact absurd (hnn v hv) (not_le.mpr hvneg)

theorem handlerLoop_full (sd : SymbolData) (hfull : MAX_CAPACITY ≤ sd.values.length) :
    ∀ vs, handlerLoop sd vs = sd := by
  intro vs
  cases vs with
  | nil => rfl
  | cons v rest => rw [handlerLoop, if_pos hfull]

theorem entryModify_self (s : String) (f : SymbolData → SymbolData) (d : SymbolData)
    (sd : SymbolData) :
    ∀ l : List (String × SymbolData), lookupSym l s = some sd → f sd = sd →
      entryModify l s f d = l := by
  intro l
  induction l with
  | nil => intro h _; exact Option.noConfusion h
  | cons e rest ih =>
    intro hlk hf
    rw [lookupSym] at hlk
    rw [entryModify]
    by_cases he : e.1 = s
    · rw [if_pos he] at hlk
      rw [if_pos he, ← Option.some.inj hlk] at *
      rw [hf]
    · rw [if_neg he] at hlk
      rw [if_neg he, ih hlk hf]

/-! ### Sample stores used in the concrete theorems -/

/-- A `SymbolData` whose tree is freshly allocated (its contents are
irrelevant to the cap checks, which only look at the key set). -/
def sampleSD : SymbolData := ⟨[100], SegmentTree.new STARTING_CAPACITY⟩

/-- A store already holding `MAX_SYMBOLS = 10` distinct symbols. -/
def tenStore : Store :=
  ⟨[("S1", sampleSD), ("S2", sampleSD), ("S3", sampleSD), ("S4", sampleSD),
    ("S5", sampleSD), ("S6", sampleSD), ("S7", sampleSD), ("S8", sampleSD),
    ("S9", sampleSD), ("S10", sampleSD)]⟩

/-- A `SymbolData` whose sample log is at the maximum capacity `10^8`. -/
def fullSD : SymbolData := ⟨List.replicate MAX_CAPACITY 1, SegmentTree.new MAX_CAPACITY⟩

/-- Stores whose every entry was produced by the ingest path. -/
def Store.WF (st : Store) : Prop := ∀ e ∈ st.symbols, ∃ vs, e.2 = buildSD vs

/-! ### The claims -/

/-- C1: for every segment tree populated by the ingest path's updates from
a value sequence `vs` and every `l ≤ r < length vs`, `SegmentTree::query l r`
returns the serial left-to-right fold of the singleton nodes of `vs[l..r]`;
consequently `get_stats` over the effective window of the last
`min w N` samples returns `min`/`max`/`avg`/`var` matching the naive
aggregation over that window (exactly, in the rational model — hence
within every tolerance). -/
theorem C1_query_serial_fold (vs : List ℚ) (l r : ℕ) (st : Store) (sym : String)
    (w : ℕ) (hlr : l ≤ r) (hr : r < vs.length)
    (hlk : lookupSym st.symbols sym = some (buildSD vs)) (hw : 1 ≤ w) :
    (buildSD vs).tree.query l r = serialFold (window vs l r) ∧
    st.get_stats sym w = .ok (windowStats vs w) := by
  have hvs : vs ≠ [] := by
    intro h
    rw [h] at hr
    simp at hr
  exact ⟨query_serialFold _ vs (buildSD_treeOk vs) l r hlr hr,
    get_stats_build st sym w vs hlk hvs hw⟩

theorem C1_query_serial_fold_witness :
    ((buildSD [10, 20, 5, 15]).tree.query 1 3
      = serialFold (window [10, 20, 5, 15] 1 3)) ∧
    Store.get_stats ⟨[("A", buildSD [10, 20, 5, 15])]⟩ "A" 10
      = .ok (windowStats [10, 20, 5, 15] 10) :=
  C1_query_serial_fold [10, 20, 5, 15] 1 3 ⟨[("A", buildSD [10, 20, 5, 15])]⟩
    "A" 10 (by decide) (by decide) rfl (by decide)

/-- C2: the merge (`impl Add for Node`) returns `b` when `a.count = 0`,
returns `a` when (`a.count ≠ 0` and) `b.count = 0`, and otherwise combines
componentwise with the Welford formulas `mean = a.mean + δ·(b.count/N)`
and `m2 = a.m2 + b.m2 + δ²·(a.count·b.count/N)`, `δ = b.mean − a.mean`,
`N = a.count + b.count`. -/
theorem C2_merge_spec (a b : Node) :
    (a.count = 0 → Node.add a b = b) ∧
    (a.count ≠ 0 → b.count = 0 → Node.add a b = a) ∧
    (a.count ≠ 0 → b.count ≠ 0 → Node.add a b =
      ⟨Min.min a.min b.min, Max.max a.max b.max, a.count + b.count,
        a.mean + (b.mean - a.mean) * ((b.count : ℚ) / ((a.count : ℚ) + (b.count : ℚ))),
        a.m2 + b.m2 + (b.mean - a.mean) ^ 2 *
          ((a.count : ℚ) * (b.count : ℚ) / ((a.count : ℚ) + (b.count : ℚ)))⟩) := by
  refine ⟨Node.add_of_left_zero a b, Node.add_of_right_zero a b, ?_⟩
  intro ha hb
  rw [Node.add_of_pos a b ha hb]
  congr 2 <;> rw [Nat.cast_add]

theorem C2_merge_spec_witness :
    (Node.add Node.identity (Node.single 3) = Node.single 3) ∧
    (Node.add (Node.single 3) Node.identity = Node.single 3) ∧
    (Node.add (Node.single 1) (Node.single 3) =
      ⟨Min.min (Node.single 1).min (Node.single 3).min,
        Max.max (Node.single 1).max (Node.single 3).max,
        (Node.single 1).count + (Node.single 3).count,
        (Node.single 1).mean + ((Node.single 3).mean - (Node.single 1).mean) *
          (((Node.single 3).count : ℚ) /
            (((Node.single 1).count : ℚ) + ((Node.single 3).count : ℚ))),
        (Node.single 1).m2 + (Node.single 3).m2 +
          ((Node.single 3).mean - (Node.single 1).mean) ^ 2 *
            (((Node.single 1).count : ℚ) * ((Node.single 3).count : ℚ) /
              (((Node.single 1).count : ℚ) + ((Node.single 3).count : ℚ)))⟩) :=
  ⟨(C2_merge_spec Node.identity (Node.single 3)).1 rfl,
    (C2_merge_spec (Node.single 3) Node.identity).2.1 (by decide) rfl,
    (C2_merge_spec (Node.single 1) (Node.single 3)).2.2 (by decide) (by decide)⟩

/-- C3: `get_stats` returns `SymbolNotFound` iff the symbol is absent;
returns `NotEnoughData` when the symbol is present with 0 samples; and
otherwise (present ingested symbol, `N ≥ 1` samples, `window_size ≥ 1`)
succeeds with the stats of the effective window of the last
`min window_size N` samples, `last = SampleLog[N−1]` — in particular a
window exceeding `N` succeeds over all `N` samples. -/
theorem C3_get_stats_errors (st : Store) (sym : String) (w : ℕ) :
    (st.get_stats sym w = .error (AppError.SymbolNotFound sym) ↔
      lookupSym st.symbols sym = none) ∧
    (∀ sd, lookupSym st.symbols sym = some sd → sd.values = [] →
      st.get_stats sym w = .error AppError.NotEnoughData) ∧
    (∀ vs, lookupSym st.symbols sym = some (buildSD vs) → vs ≠ [] → 1 ≤ w →
      st.get_stats sym w = .ok (windowStats vs w)) :=
  ⟨get_stats_notfound_iff st sym w,
    fun sd hlk hsd => get_stats_empty_log st sym w sd hlk hsd,
    fun vs hlk hvs hw => get_stats_build st sym w vs hlk hvs hw⟩

theorem C3_get_stats_errors_witness :
    Store.get_stats ⟨[("E", ⟨[], SegmentTree.new 1⟩)]⟩ "E" 5
      = .error AppError.NotEnoughData ∧
    Store.get_stats ⟨[("A", buildSD [1, 2])]⟩ "A" 100
      = .ok (windowStats [1, 2] 100) :=
  ⟨(C3_get_stats_errors ⟨[("E", ⟨[], SegmentTree.new 1⟩)]⟩ "E" 5).2.1
      ⟨[], SegmentTree.new 1⟩ rfl rfl,
    (C3_get_stats_errors ⟨[("A", buildSD [1, 2])]⟩ "A" 100).2.2
      [1, 2] rfl (by decide) (by decide)⟩

/-- C4 (divergence): with 10 distinct symbols already present,
`Store::add_batch` does reject an 11th symbol with the cap `BadRequest`,
but the HTTP ingest path `add_batch_handler` never calls it and performs
no cap check: the same request succeeds and inserts an 11th entry,
contradicting the claim (and the repo's own `test_rejects_eleventh_symbol`). -/
theorem C4_symbol_cap_divergence :
    Store.add_batch tenStore "S11" [100] =
      (.error (AppError.BadRequest "Maximum number of unique symbols (10) reached."),
        tenStore) ∧
    (add_batch_handler tenStore "S11" [100]).1 = .ok () ∧
    (add_batch_handler tenStore "S11" [100]).2.len = 11 :=
  ⟨by rfl, by rfl, by rfl⟩

/-- C5 (divergence): no `MAX_BATCH` check exists on any ingest path: a
batch of 10,001 values is accepted by both `add_batch_handler` and
`Store::add_batch` (a batch of exactly 10,000 is accepted as the claim
says), contradicting the claim and the repo's own
`test_rejects_oversized_batch` / `test_exact_batch_size_limits`. -/
theorem C5_no_batch_size_check :
    (add_batch_handler ⟨[]⟩ "OVERSIZED" (List.replicate 10001 100)).1 = .ok () ∧
    (Store.add_batch ⟨[]⟩ "OVERSIZED" (List.replicate 10001 100)).1 = .ok () ∧
    (add_batch_handler ⟨[]⟩ "MAX-BATCH" (List.replicate 10000 100)).1 = .ok () := by
  have hnn : ∀ n, ∀ v ∈ List.replicate n (100 : ℚ), 0 ≤ v := by
    intro n v hv
    rw [List.eq_of_mem_replicate hv]
    norm_num
  have hne : ∀ n, n ≠ 0 → List.replicate n (100 : ℚ) ≠ [] := by
    intro n hn h
    have := List.length_replicate n (100 : ℚ)
    rw [h] at this
    simp at this
    omega
  refine ⟨?_, ?_, ?_⟩
  · rw [add_batch_handler_ok _ _ _ (hne 10001 (by omega)) (hnn 10001)]
  · rw [Store.add_batch, if_neg]
    rintro ⟨-, hlen⟩
    simp [Store.len, MAX_SYMBOLS] at hlen
  · rw [add_batch_handler_ok _ _ _ (hne 10000 (by omega)) (hnn 10000)]

/-- C6: once a symbol's sample log has reached `MAX_CAPACITY = 10^8`,
a further `add_batch` through the service handler silently drops the
values — the store (sample log and segment tree included) is returned
unchanged — and still reports success. -/
theorem C6_capacity_drop (st : Store) (sym : String) (vs : List ℚ) (sd : SymbolData)
    (hlk : lookupSym st.symbols sym = some sd)
    (hfull : MAX_CAPACITY ≤ sd.values.length)
    (hne : vs ≠ []) (hnn : ∀ v ∈ vs, 0 ≤ v) :
    add_batch_handler st sym vs = (.ok (), st) := by
  rw [add_batch_handler_ok st sym vs hne hnn,
    entryModify_self sym _ SymbolData.freshHandler sd st.symbols hlk
      (handlerLoop_full sd hfull vs)]

theorem C6_capacity_drop_witness :
    add_batch_handler ⟨[("FULL", fullSD)]⟩ "FULL" [5] = (.ok (), ⟨[("FULL", fullSD)]⟩) :=
  C6_capacity_drop ⟨[("FULL", fullSD)]⟩ "FULL" [5] fullSD rfl
    (by simp [fullSD]) (by decide) (by decide)

/-- C7: an empty batch is rejected with `BadRequest` (message
"Cannot add an empty batch of values") on the ingest path, for every
symbol and store state, and the store is left unchanged. -/
theorem C7_empty_batch_rejected (st : Store) (sym : String) :
    add_batch_handler st sym [] =
      (.error (AppError.BadRequest "Cannot add an empty batch of values"), st) := by
  unfold add_batch_handler
  rw [if_pos rfl]

/-- C8: a batch containing any value `< 0` is rejected with `BadRequest`
whose message is "Negative trading prices are not allowed"; batches of
nonnegative values — in particular ones containing `-0.0`, which equals
`0` in the exact model and is not `< 0` — are accepted. -/
theorem C8_negative_rejected (st : Store) (sym : String) (vs : List ℚ) :
    ((∃ v ∈ vs, v < 0) → add_batch_handler st sym vs =
      (.error (AppError.BadRequest "Negative trading prices are not allowed"), st)) ∧
    (vs ≠ [] → (∀ v ∈ vs, 0 ≤ v) → (add_batch_handler st sym vs).1 = .ok ()) := by
  constructor
  · intro hneg
    have hne : vs ≠ [] := by
      rintro rfl
      obtain ⟨v, hv, -⟩ := hneg
      exact absurd hv (List.not_mem_nil v)
    unfold add_batch_handler
    rw [if_neg hne, if_pos hneg]
  · intro hne hnn
    rw [add_batch_handler_ok st sym vs hne hnn]

theorem C8_negative_rejected_witness :
    (add_batch_handler ⟨[]⟩ "BTC-USD" [68000, -50] =
      (.error (AppError.BadRequest "Negative trading prices are not allowed"), ⟨[]⟩)) ∧
    (add_batch_handler ⟨[]⟩ "ZERO" [-0] ).1 = .ok () :=
  ⟨(C8_negative_rejected ⟨[]⟩ "BTC-USD" [68000, -50]).1 (by decide),
    (C8_negative_rejected ⟨[]⟩ "ZERO" [-0]).2 (by decide) (by decide)⟩

/-- C9: every successful `get_stats` on a store built by the ingest path
has `var ≥ 0` — the `m2` of every reachable aggregate node (built from
`m2 = 0` singletons via the Welford merge) is nonnegative, so the derived
population variance `m2 / count` is never negative. -/
theorem C9_variance_nonneg (st : Store) (sym : String) (w : ℕ) (s : SymbolStats)
    (hwf : Store.WF st) (h : st.get_stats sym w = .ok s) : 0 ≤ s.var := by
  cases hlk : lookupSym st.symbols sym with
  | none =>
    unfold Store.get_stats at h
    rw [hlk] at h
    exact Except.noConfusion h
  | some sd =>
    obtain ⟨k, hk⟩ := lookupSym_mem st.symbols sym sd hlk
    obtain ⟨vs, hvs⟩ := hwf (k, sd) hk
    simp only at hvs
    rw [hvs] at hlk
    rcases eq_or_ne vs [] with hnil | hnil
    · rw [get_stats_empty_log st sym w _ hlk (by rw [buildSD_values, hnil])] at h
      exact Except.noConfusion h
    · rcases Nat.eq_zero_or_pos w with hw | hw
      · rw [hw] at h
        exact absurd h (get_stats_w0 st sym s)
      · rw [get_stats_build st sym w vs hlk hnil hw] at h
        rw [← Except.ok.inj h]
        show 0 ≤ naiveVar _
        refine naiveVar_nonneg _ ?_
        intro hwin
        have hlen := window_last_length vs w hnil hw
        rw [hwin] at hlen
        have hvlen : vs.length ≠ 0 := fun hh => hnil (List.length_eq_zero.mp hh)
        simp only [List.length_nil] at hlen
        omega

theorem C9_variance_nonneg_witness :
    (0 : ℚ) ≤ (SymbolStats.mk 1 2 2 (3/2) (1/4)).var :=
  C9_variance_nonneg ⟨[("A", buildSD [1, 2])]⟩ "A" 10 ⟨1, 2, 2, 3/2, 1/4⟩
    (by
      intro e he
      rw [List.mem_singleton] at he
      subst he
      exact ⟨[1, 2], rfl⟩)
    (by decide)

/-- C10: every rejected ingest (empty batch and negative value on the
handler path, symbol cap on the store path) leaves the store completely
unchanged — no entry is created for a new symbol, no values are appended
anywhere. -/
theorem C10_rejection_frame (st : Store) (sym : String) (vs : List ℚ) :
    (vs = [] → add_batch_handler st sym vs =
      (.error (AppError.BadRequest "Cannot add an empty batch of values"), st)) ∧
    ((∃ v ∈ vs, v < 0) → add_batch_handler st sym vs =
      (.error (AppError.BadRequest "Negative trading prices are not allowed"), st)) ∧
    (st.containsKey sym = false → MAX_SYMBOLS ≤ st.len →
      Store.add_batch st sym vs =
        (.error (AppError.BadRequest "Maximum number of unique symbols (10) reached."),
          st)) := by
  refine ⟨?_, ?_, ?_⟩
  · rintro rfl
    unfold add_batch_handler
    rw [if_pos rfl]
  · intro hneg
    have hne : vs ≠ [] := by
      rintro rfl
      obtain ⟨v, hv, -⟩ := hneg
      exact absurd hv (List.not_mem_nil v)
    unfold add_batch_handler
    rw [if_neg hne, if_pos hneg]
  · intro hcon hlen
    unfold Store.add_batch
    rw [if_pos ⟨hcon, hlen⟩]

theorem C10_rejection_frame_witness :
    (add_batch_handler ⟨[]⟩ "A" [] =
      (.error (AppError.BadRequest "Cannot add an empty batch of values"), ⟨[]⟩)) ∧
    (add_batch_handler ⟨[]⟩ "B" [68000, -50] =
      (.error (AppError.BadRequest "Negative trading prices are not allowed"), ⟨[]⟩)) ∧
    (Store.add_batch tenStore "S11" [1] =
      (.error (AppError.BadRequest "Maximum number of unique symbols (10) reached."),
        tenStore)) :=
  ⟨(C10_rejection_frame ⟨[]⟩ "A" []).1 rfl,
    (C10_rejection_frame ⟨[]⟩ "B" [68000, -50]).2.1 (by decide),
    (C10_rejection_frame tenStore "S11" [1]).2.2 (by decide) (by decide)⟩

end HftService
